import Mathlib

/-!
Verification development for the `create_system` repository: a shallow
embedding of the lattice generator (`src/lattice.rs`), the atom iterator
(`src/iterator.rs`), the system component types (`src/system.rs`), the
substrate constructor (`src/substrates.rs`) and the cylinder volume
(`src/volume/cylinder.rs`), together with a model of the Poisson-disc
point distributor described by the specification.

The `f64` values of the source are modelled as exact rationals `ℚ`;
comparisons that the source performs on square roots are stated over `ℝ`
inside `Prop`-valued definitions so that every `def` stays computable.
-/

namespace CreateSystem

/-- A three-dimensional coordinate (`Coord` in `system.rs` / `lattice.rs`);
the three `f64` components are modelled as exact rationals. -/
@[ext]
structure Coord where
  x : ℚ
  y : ℚ
  z : ℚ
deriving DecidableEq, Repr

/-- `Coord::new`. -/
def Coord.new (x y z : ℚ) : Coord := ⟨x, y, z⟩

/-- `impl Add for Coord` (`system.rs`): componentwise addition. -/
def Coord.add (a b : Coord) : Coord :=
  ⟨a.x + b.x, a.y + b.y, a.z + b.z⟩

instance : Add Coord := ⟨Coord.add⟩

/-- `impl Sub for Coord` (`system.rs`): componentwise subtraction. -/
def Coord.sub (a b : Coord) : Coord :=
  ⟨a.x - b.x, a.y - b.y, a.z - b.z⟩

instance : Sub Coord := ⟨Coord.sub⟩

/-- Componentwise negation, used to undo a translation. -/
def Coord.neg (a : Coord) : Coord := ⟨-a.x, -a.y, -a.z⟩

/-- `impl PartialEq for Coord` (`system.rs`): tolerant equality with absolute
tolerance `1e-9` on every component. -/
def Coord.eqTol (a b : Coord) : Prop :=
  |a.x - b.x| < 1 / 1000000000 ∧ |a.y - b.y| < 1 / 1000000000 ∧
    |a.z - b.z| < 1 / 1000000000

instance (a b : Coord) : Decidable (Coord.eqTol a b) :=
  inferInstanceAs (Decidable (_ ∧ _ ∧ _))

/-- Lattice types a substrate can be built from (`enum LatticeType`,
`lattice.rs`). -/
inductive LatticeType where
  | Hexagonal
  | Triclinic
deriving DecidableEq, Repr

/-- `struct Spacing` (`lattice.rs`): space `dx` between columns along x,
space `dy` between rows along y, and adjustment `dx_per_row` of x per row. -/
structure Spacing where
  dx : ℚ
  dy : ℚ
  dx_per_row : ℚ
deriving DecidableEq, Repr

/-- A crystal base for a 2D lattice (`struct Crystal`, `lattice.rs`).
The source stores the vector lengths `(a, b)` and the angle `gamma` and
computes `Crystal::spacing` as `dx = a`, `dy = b·sin gamma`,
`dx_per_row = b·cos gamma`; since those sines and cosines are irrational
the model carries the computed spacing directly.  Every theorem below is
stated for arbitrary spacing values, hence covers every crystal base. -/
structure Crystal where
  spacing : Spacing
  lattice_type : LatticeType

/-- A generated lattice (`struct Lattice`, `lattice.rs`). -/
structure Lattice where
  box_size : Coord
  coords : List Coord
deriving DecidableEq, Repr

/-- The grid point placed at `(row, col)`: the `Coord` built by both
`LatticeBuilder::generic` and `LatticeBuilder::hexagonal`:
`x = col·dx + row·dx_per_row`, `y = row·dy`, `z = 0`. -/
def latticePoint (sp : Spacing) (row col : ℕ) : Coord :=
  ⟨(col : ℚ) * sp.dx + (row : ℚ) * sp.dx_per_row, (row : ℚ) * sp.dy, 0⟩

/-- `LatticeBuilder::generic`: one point per `(row, col)` of the
`ny × nx` grid, rows outermost. -/
def genericCoords (sp : Spacing) (nx ny : ℕ) : List Coord :=
  (List.range ny).flatMap fun row =>
    (List.range nx).map fun col => latticePoint sp row col

/-- `LatticeBuilder::hexagonal` point placement: the same grid with every
point whose indices satisfy `(col + row + 1) % 3 == 0` removed. -/
def hexagonalCoords (sp : Spacing) (nx ny : ℕ) : List Coord :=
  (List.range ny).flatMap fun row =>
    (((List.range nx).filter fun col => 0 < (col + row + 1) % 3).map
      fun col => latticePoint sp row col)

/-- The column adjustment of `LatticeBuilder::hexagonal`:
`nx = ((nx as f64 / 3.0).ceil() * 3.0) as u64`, the number of columns
rounded up to the closest multiple of 3. -/
def hexNx (nx : ℕ) : ℕ := (⌈(nx : ℚ) / 3⌉).toNat * 3

/-- The row adjustment of `LatticeBuilder::hexagonal`:
`ny = ((ny as f64 / 2.0).ceil() * 2.0) as u64`, the number of rows
rounded up to the closest multiple of 2. -/
def hexNy (ny : ℕ) : ℕ := (⌈(ny : ℚ) / 2⌉).toNat * 2

/-- `LatticeBuilder::finalize`: the box size is computed from the final
replica counts, `box_size = (nx·dx, ny·dy, 0)`. -/
def finalize (sp : Spacing) (nx ny : ℕ) (coords : List Coord) : Lattice :=
  { box_size := ⟨(nx : ℚ) * sp.dx, (ny : ℚ) * sp.dy, 0⟩, coords := coords }

/-- `LatticeBuilder::new` (the body of `Lattice::new`): dispatch on the
lattice type; the hexagonal branch adjusts the replica counts before
placing points, and `finalize` then uses the adjusted counts. -/
def Lattice.new (crystal : Crystal) (nx ny : ℕ) : Lattice :=
  match crystal.lattice_type with
  | .Hexagonal =>
      finalize crystal.spacing (hexNx nx) (hexNy ny)
        (hexagonalCoords crystal.spacing (hexNx nx) (hexNy ny))
  | .Triclinic =>
      finalize crystal.spacing nx ny (genericCoords crystal.spacing nx ny)

/-- `f64::round` on the rational model: round half away from zero. -/
def roundF64 (q : ℚ) : ℤ := if 0 ≤ q then ⌊q + 1 / 2⌋ else ⌈q - 1 / 2⌉

/-- The `as u64` cast of a rounded value: negative values clamp to zero. -/
def toU64 (i : ℤ) : ℕ := i.toNat

/-- `Lattice::from_size`: replica counts are the rounded ratios
`size / spacing` in each direction, then `Lattice::new` is invoked.
No validation of the sizes is performed. -/
def Lattice.from_size (crystal : Crystal) (size_x size_y : ℚ) : Lattice :=
  Lattice.new crystal (toU64 (roundF64 (size_x / crystal.spacing.dx)))
    (toU64 (roundF64 (size_y / crystal.spacing.dy)))

/-- `Lattice::translate`: every coordinate is shifted by the input vector;
the box size is untouched. -/
def Lattice.translate (l : Lattice) (t : Coord) : Lattice :=
  { l with coords := l.coords.map fun c => c.add t }

/-- Row-major list of the `(row, col)` index pairs of a `ny × nx` grid,
mirroring the iteration order of the lattice builders; used to state which
grid points the hexagonal builder keeps. -/
def gridIndices (nx ny : ℕ) : List (ℕ × ℕ) :=
  (List.range ny).flatMap fun row =>
    (List.range nx).map fun col => (row, col)

/-- `struct Atom` (`system.rs`): an atom code and a relative position. -/
structure Atom where
  code : String
  position : Coord
deriving DecidableEq, Repr

/-- `struct Residue` (`ResidueBase` in `system.rs`): a residue code and
its ordered list of template atoms. -/
structure Residue where
  code : String
  atoms : List Atom
deriving DecidableEq, Repr

/-- `struct Component` (`system.rs`). -/
structure Component where
  origin : Coord
  box_size : Coord
  residue_base : Residue
  residue_coords : List Coord
deriving DecidableEq, Repr

/-- `Component::num_atoms`. -/
def Component.num_atoms (c : Component) : ℕ :=
  c.residue_base.atoms.length * c.residue_coords.length

/-- `Component::translate`: only the origin is shifted; the residue
coordinates (which are relative to the origin) are untouched. -/
def Component.translate (c : Component) (add : Coord) : Component :=
  { c with origin := c.origin + add }

/-- `struct CurrentAtom` (`iterator.rs`): one yielded atom record. -/
structure CurrentAtom where
  atom_index : ℕ
  residue_index : ℕ
  atom : Atom
  residue : Residue
  position : Coord
deriving DecidableEq, Repr

/-- Inner loop of `AtomIterator::next`: the records yielded while
`coord_index` stays fixed, one per remaining template atom.  `count` is the
running absolute atom counter (`atom_count` in the source); the position is
`atom.position + coord + origin` exactly as in the source. -/
def stampAtoms (residue : Residue) (origin coord : Coord) (coord_index : ℕ) :
    List Atom → ℕ → List CurrentAtom
  | [], _ => []
  | atom :: rest, count =>
      { atom_index := count, residue_index := coord_index, atom := atom,
        residue := residue, position := atom.position + coord + origin } ::
        stampAtoms residue origin coord coord_index rest (count + 1)

/-- Outer loop of `AtomIterator::next`: when the template is exhausted the
iterator resets `atom_index`, advances `coord_index` and recurses; the
absolute counter `count` keeps running across units. -/
def stampCoords (residue : Residue) (origin : Coord) :
    List Coord → ℕ → ℕ → List CurrentAtom
  | [], _, _ => []
  | coord :: rest, coord_index, count =>
      stampAtoms residue origin coord coord_index residue.atoms count ++
        stampCoords residue origin rest (coord_index + 1)
          (count + residue.atoms.length)

/-- The full sequence yielded by `AtomIterator::new(residue, coords, origin)`
(`iterator.rs`): nothing for a missing residue, otherwise all template atoms
for each coordinate in order, with the running state of `next`
(`atom_index`, `coord_index`, `atom_count`) made explicit. -/
def atomIterator (residue : Option Residue) (coords : List Coord)
    (origin : Coord) : List CurrentAtom :=
  match residue with
  | none => []
  | some r => stampCoords r origin coords 0 0

/-- `enum Substrate` (`substrates.rs`). -/
inductive Substrate where
  | Graphene
  | Silica

/-- `create_substrate` (`substrates.rs`): non-positive sizes are rejected
with an error before anything is generated, then the substrate type is
dispatched (`Silica` is unimplemented).  The graphene grid generation lives
in `grids.rs` which is not part of `src`, so it is abstracted as the
argument `gen`; the validation demonstrably precedes any use of `gen`. -/
def create_substrate {α : Type} (gen : ℚ → ℚ → α) (size_x size_y : ℚ)
    (substrate : Substrate) : Except String α :=
  if size_x ≤ 0 ∨ size_y ≤ 0 then
    Except.error "input sizes of the system have to be positive"
  else
    match substrate with
    | .Graphene => Except.ok (gen size_x size_y)
    | .Silica => Except.error "Substrate not yet implemented"

/-- `enum Direction` (declared in `coord.rs`, which is not part of `src`;
modelled from the spec: one of X, Y, Z, the alignment axis). -/
inductive Direction where
  | X
  | Y
  | Z
deriving DecidableEq, Repr

/-- Squared radial part of the cylindrical decomposition of a difference
vector: the sum of squares of the two components transverse to the
alignment axis.  `Coord::distance_cylindrical` (in `coord.rs`, not part of
`src`; modelled from the spec: radial distance from the alignment axis plus
signed height along it) returns `(√(radialSq d dir), axial d dir)` for
`d = other - self`. -/
def radialSq (d : Coord) (dir : Direction) : ℚ :=
  match dir with
  | .X => d.y ^ 2 + d.z ^ 2
  | .Y => d.x ^ 2 + d.z ^ 2
  | .Z => d.x ^ 2 + d.y ^ 2

/-- Signed height along the alignment axis of the cylindrical decomposition
(see `radialSq`). -/
def axial (d : Coord) (dir : Direction) : ℚ :=
  match dir with
  | .X => d.x
  | .Y => d.y
  | .Z => d.z

/-- A cylindrical volume (`struct Cylinder`, `volume/cylinder.rs`). -/
structure Cylinder where
  name : Option String
  residue : Option Residue
  alignment : Direction
  origin : Coord
  radius : ℚ
  height : ℚ
  coords : List Coord

/-- `impl Contains for Cylinder` (`volume/cylinder.rs`): with
`(dr, dh) = origin.distance_cylindrical(coord, alignment)` the test is
`dr <= radius && dh >= 0.0 && dh <= height`.  The radial distance is the
real square root of `radialSq`, so the comparison is stated over `ℝ`. -/
def Cylinder.contains (cyl : Cylinder) (coord : Coord) : Prop :=
  Real.sqrt ((radialSq (coord - cyl.origin) cyl.alignment : ℚ) : ℝ) ≤
      ((cyl.radius : ℚ) : ℝ) ∧
    0 ≤ axial (coord - cyl.origin) cyl.alignment ∧
    axial (coord - cyl.origin) cyl.alignment ≤ cyl.height

/-- The assembly of generalized cylindrical coordinates into a `Coord`
performed at the end of `gen_coord` in `Cylinder::fill`
(`volume/cylinder.rs`): `X => (h, r0, r1)`, `Y => (r0, h, r1)`,
`Z => (r0, r1, h)`. -/
def assemble (dir : Direction) (r0 r1 h : ℚ) : Coord :=
  match dir with
  | .X => ⟨h, r0, r1⟩
  | .Y => ⟨r0, h, r1⟩
  | .Z => ⟨r0, r1, h⟩

/-- One draw of the hidden RNG consumed by `gen_coord` in `Cylinder::fill`:
a unit draw `u_radius ∈ [0,1)` for `Range::new(0.0, radius)` (the sampled
radius is `radius * u_radius`, uniform in `[0, radius)`), the direction
`(cos angle, sin angle)` of the uniformly drawn angle (carried as the unit
vector so that the model stays in `ℚ`; validity asks `cos² + sin² = 1`),
and a unit draw `u_height ∈ [0,1)` for `Range::new(0.0, height)`. -/
structure Draw where
  u_radius : ℚ
  cos_angle : ℚ
  sin_angle : ℚ
  u_height : ℚ

/-- Validity of one modelled RNG draw: unit draws lie in `[0, 1)` and the
angle direction is a unit vector. -/
def Draw.valid (d : Draw) : Prop :=
  0 ≤ d.u_radius ∧ d.u_radius < 1 ∧
    d.cos_angle ^ 2 + d.sin_angle ^ 2 = 1 ∧
    0 ≤ d.u_height ∧ d.u_height < 1

/-- The closure `gen_coord` of `Cylinder::fill` (`volume/cylinder.rs`):
`radius = range_radius.ind_sample(rng)` — uniform in `[0, radius)`, i.e.
`radius * u_radius`, with no square root —, `r0 = radius·cos angle`,
`r1 = radius·sin angle`, `h` uniform in `[0, height)`, assembled per the
alignment axis. -/
def gen_coord (cyl : Cylinder) (d : Draw) : Coord :=
  let radius := cyl.radius * d.u_radius
  let r0 := radius * d.cos_angle
  let r1 := radius * d.sin_angle
  let h := cyl.height * d.u_height
  assemble cyl.alignment r0 r1 h

/-- `FillType::NumCoords` (`volume/mod.rs` is not part of `src`; modelled
from the spec: a fill is parametrized by an explicit target point count or
by a density; only the explicit count is needed here). -/
inductive FillType where
  | NumCoords (n : ℕ)

/-- `FillType::to_num_coords` for the explicit-count variant. -/
def FillType.to_num_coords (ft : FillType) : ℕ :=
  match ft with
  | .NumCoords n => n

/-- `Cylinder::fill` (`volume/cylinder.rs`): draws `num_coords` points with
`gen_coord` and returns the cylinder with its `coords` replaced.  The
source takes its randomness from `rand::thread_rng()` — a hidden global
generator that is not a parameter of the function; that hidden state is
modelled as the explicit stream `rng` of per-point draws. -/
def Cylinder.fill (cyl : Cylinder) (rng : ℕ → Draw) (ft : FillType) :
    Cylinder :=
  { cyl with
    coords := (List.range ft.to_num_coords).map fun i => gen_coord cyl (rng i) }

/-- The radial draw as the specification words it for `fill`:
`radius = R·sqrt(u)` (area-uniform sampling).  Carried as its square
`(R·√u)² = R²·u` so that the definition stays in `ℚ`. -/
def specFillRadialSq (radius u : ℚ) : ℚ := radius ^ 2 * u

namespace Poisson

/-!
Modelled from the spec: the Poisson-disc (Bridson) point distributor of
`surface/distribution.rs`, which is not part of `src` (only its
declaration `LatticeType::PoissonDisc` in `surface/mod.rs` is).  Per the
spec: keep a list of accepted points and a list of active points; seed
with one point; repeatedly pick a random active point and attempt a fixed
number of random candidate offsets around it, accepting a candidate only
if it lies in the bounds and no existing point is within `r` of it;
retire the picked point once its attempt budget is exhausted.  The
background grid of cell size `r/√2` is an acceleration structure for the
same neighbour test and is modelled as the direct distance test.  The
minimum separation `r = sqrt(2/(π·density))` is irrational, so the model
carries its square `rsq`; points are 2-D pairs `(x, y)` in `ℚ`. -/

/-- Squared Euclidean distance between two 2-D points. -/
def dist2 (p q : ℚ × ℚ) : ℚ := (p.1 - q.1) ^ 2 + (p.2 - q.2) ^ 2

/-- Membership of a point in the rectangular bounds `[0, w] × [0, h]`. -/
def inBounds (w h : ℚ) (p : ℚ × ℚ) : Prop :=
  0 ≤ p.1 ∧ p.1 ≤ w ∧ 0 ≤ p.2 ∧ p.2 ≤ h

instance (w h : ℚ) (p : ℚ × ℚ) : Decidable (inBounds w h p) :=
  inferInstanceAs (Decidable (_ ∧ _ ∧ _ ∧ _))

/-- Acceptance test for a candidate: inside the bounds and no existing
point within `r` (squared distances at least `rsq`). -/
def accepts (rsq w h : ℚ) (points : List (ℚ × ℚ)) (c : ℚ × ℚ) : Bool :=
  decide (inBounds w h c) && points.all fun p => decide (rsq ≤ dist2 p c)

/-- Try the candidate offsets around a chosen active point in order and
return the first accepted candidate, if any. -/
def tryCands (rsq w h : ℚ) (points : List (ℚ × ℚ)) (chosen : ℚ × ℚ) :
    List (ℚ × ℚ) → Option (ℚ × ℚ)
  | [] => none
  | o :: rest =>
      let c := (chosen.1 + o.1, chosen.2 + o.2)
      if accepts rsq w h points c then some c
      else tryCands rsq w h points chosen rest

/-- The randomness consumed by one step: which active point to pick and
the candidate offsets (the random annulus draws) for its attempts. -/
structure StepRand where
  pick : ℕ
  offsets : ℕ → ℚ × ℚ

/-- The sampler state: accepted points and the still-active ones. -/
structure PDState where
  points : List (ℚ × ℚ)
  active : List (ℚ × ℚ)
deriving DecidableEq, Repr

/-- One step of the sampler: pick an active point (random index reduced
modulo the list length), attempt `k` candidate offsets; on success append
the new point to both lists (the chosen point stays active), otherwise
retire the chosen point. -/
def step (rsq w h : ℚ) (k : ℕ) (r : StepRand) (st : PDState) : PDState :=
  match st.active with
  | [] => st
  | a :: _ =>
      let i := r.pick % st.active.length
      let chosen := st.active.getD i a
      match tryCands rsq w h st.points chosen
          ((List.range k).map r.offsets) with
      | some c => { points := st.points ++ [c], active := st.active ++ [c] }
      | none => { points := st.points, active := st.active.eraseIdx i }

/-- Run the sampler, consuming one `StepRand` per step, until the active
list is empty or the fuel runs out. -/
def run (rsq w h : ℚ) (k : ℕ) (stream : ℕ → StepRand) :
    ℕ → PDState → PDState
  | 0, st => st
  | fuel + 1, st =>
      match st.active with
      | [] => st
      | _ :: _ =>
          run rsq w h k (fun i => stream (i + 1)) fuel
            (step rsq w h k (stream 0) st)

/-- The whole sampler: seed with one point, then run to exhaustion. -/
def poissonDisc (rsq w h : ℚ) (k : ℕ) (seed : ℚ × ℚ)
    (stream : ℕ → StepRand) (fuel : ℕ) : PDState :=
  run rsq w h k stream fuel { points := [seed], active := [seed] }

/-- The cell side used by the packing argument: a positive rational with
`2·s² < rsq`, playing the role of the grid cell size `r/√2`. -/
def cellSide (rsq : ℚ) : ℚ := rsq / (2 * (rsq + 1))

/-- The cell of a point: integer cell indices at cell side `s`. -/
def cell (s : ℚ) (p : ℚ × ℚ) : ℕ × ℕ :=
  ((⌊p.1 / s⌋).toNat, (⌊p.2 / s⌋).toNat)

/-- A bound on how many pairwise-separated points fit in the bounds:
the number of grid cells of side `cellSide rsq` covering `[0,w] × [0,h]`. -/
def maxPoints (rsq w h : ℚ) : ℕ :=
  ((⌊w / cellSide rsq⌋).toNat + 1) * ((⌊h / cellSide rsq⌋).toNat + 1)

/-- The state invariant: accepted points are pairwise separated by at
least `rsq` in squared distance, lie in the bounds, and every active point
is an accepted point. -/
def Inv (rsq w h : ℚ) (st : PDState) : Prop :=
  st.points.Pairwise (fun p q => rsq ≤ dist2 p q) ∧
    (∀ p ∈ st.points, inBounds w h p) ∧
    (∀ p ∈ st.active, p ∈ st.points)

/-- The termination measure: each step strictly decreases it. -/
def measure (rsq w h : ℚ) (st : PDState) : ℕ :=
  2 * (maxPoints rsq w h + 1 - st.points.length) + st.active.length

end Poisson

/-! ### Helper lemmas -/

theorem Coord.add_def (a b : Coord) :
    a + b = ⟨a.x + b.x, a.y + b.y, a.z + b.z⟩ := rfl

theorem Coord.sub_def (a b : Coord) :
    a - b = ⟨a.x - b.x, a.y - b.y, a.z - b.z⟩ := rfl

theorem hexNx_eq (n : ℕ) : hexNx n = ((n + 2) / 3) * 3 := by
  unfold hexNx
  have h : ⌈(n : ℚ) / 3⌉ = -(-(n : ℤ) / 3) := by
    rw [show (⌈(n : ℚ) / 3⌉ = -⌊-((n : ℚ) / 3)⌋) from rfl]
    congr 1
    rw [show (-((n : ℚ) / 3)) = ((-(n : ℤ) : ℤ) : ℚ) / ((3 : ℕ) : ℚ) by
      push_cast; ring]
    exact Rat.floor_intCast_div_natCast _ _
  rw [h]
  omega

theorem hexNy_eq (n : ℕ) : hexNy n = ((n + 1) / 2) * 2 := by
  unfold hexNy
  have h : ⌈(n : ℚ) / 2⌉ = -(-(n : ℤ) / 2) := by
    rw [show (⌈(n : ℚ) / 2⌉ = -⌊-((n : ℚ) / 2)⌋) from rfl]
    congr 1
    rw [show (-((n : ℚ) / 2)) = ((-(n : ℤ) : ℤ) : ℚ) / ((2 : ℕ) : ℚ) by
      push_cast; ring]
    exact Rat.floor_intCast_div_natCast _ _
  rw [h]
  omega

theorem roundF64_abs (q : ℚ) : |q - (roundF64 q : ℚ)| ≤ 1 / 2 := by
  unfold roundF64
  split
  · rw [abs_le]
    constructor
    · have := Int.floor_le (q + 1 / 2); linarith
    · have := Int.lt_floor_add_one (q + 1 / 2); linarith
  · rw [abs_le]
    constructor
    · have := Int.ceil_lt_add_one (q - 1 / 2); linarith
    · have := Int.le_ceil (q - 1 / 2); linarith

theorem flatMap_range_length {α : Type} (f : ℕ → List α) (n c : ℕ)
    (h : ∀ i, i < n → (f i).length = c) :
    ((List.range n).flatMap f).length = n * c := by
  induction n with
  | zero => simp
  | succ m ih =>
    rw [List.range_succ, List.flatMap_append, List.length_append,
      ih (fun i hi => h i (by omega))]
    simp [h m (by omega), Nat.succ_mul]

theorem flatMap_range_map_getElem {α : Type} (g : ℕ → ℕ → α)
    (nx : ℕ) : ∀ n row col : ℕ, row < n → col < nx →
    ((List.range n).flatMap fun r => (List.range nx).map (g r))[row * nx
      + col]? = some (g row col) := by
  intro n
  induction n with
  | zero => omega
  | succ m ih =>
    intro row col hrow hcol
    have hlen : ((List.range m).flatMap
        fun r => (List.range nx).map (g r)).length = m * nx :=
      flatMap_range_length _ _ _ (fun i _ => by simp)
    rw [List.range_succ, List.flatMap_append]
    rcases Nat.lt_or_ge row m with h | h
    · rw [List.getElem?_append_left (by
        rw [hlen]
        calc row * nx + col < row * nx + nx := by omega
          _ = (row + 1) * nx := by ring
          _ ≤ m * nx := Nat.mul_le_mul_right _ (by omega))]
      exact ih row col h hcol
    · have hrow_eq : row = m := by omega
      subst hrow_eq
      rw [List.getElem?_append_right (by rw [hlen]; exact Nat.le_add_right _ _)]
      rw [hlen, Nat.add_sub_cancel_left]
      simp [List.getElem?_map, List.getElem?_range hcol]

theorem filter_flatMap {α β : Type} (l : List α) (g : α → List β)
    (p : β → Bool) :
    (l.flatMap g).filter p = l.flatMap fun a => (g a).filter p := by
  induction l with
  | nil => simp
  | cons a l ih => simp [List.filter_append, ih]

theorem map_flatMap {α β γ : Type} (l : List α) (g : α → List β)
    (f : β → γ) :
    (l.flatMap g).map f = l.flatMap fun a => (g a).map f := by
  induction l with
  | nil => simp
  | cons a l ih => simp [ih]

theorem length_filter_add_length_filter_not {α : Type} (l : List α)
    (p : α → Bool) :
    (l.filter p).length + (l.filter fun a => !(p a)).length = l.length := by
  induction l with
  | nil => simp
  | cons a l ih =>
    by_cases h : p a = true <;> simp [List.filter_cons, h] <;> omega

theorem stampAtoms_length (r : Residue) (o c : Coord) (ci : ℕ) :
    ∀ (atoms : List Atom) (count : ℕ),
    (stampAtoms r o c ci atoms count).length = atoms.length := by
  intro atoms
  induction atoms with
  | nil => intro count; rfl
  | cons a rest ih => intro count; simp [stampAtoms, ih]

theorem stampAtoms_getElem (r : Residue) (o c : Coord) (ci : ℕ) :
    ∀ (atoms : List Atom) (count j : ℕ) (a : Atom), atoms[j]? = some a →
    (stampAtoms r o c ci atoms count)[j]? =
      some { atom_index := count + j, residue_index := ci, atom := a,
             residue := r, position := a.position + c + o } := by
  intro atoms
  induction atoms with
  | nil => intro count j a h; simp at h
  | cons a0 rest ih =>
    intro count j a h
    cases j with
    | zero =>
      simp at h
      subst h
      simp [stampAtoms]
    | succ j =>
      simp at h
      have hj := ih (count + 1) j a h
      simp only [stampAtoms, List.getElem?_cons_succ]
      rw [hj, show count + 1 + j = count + (j + 1) from by omega]

theorem stampCoords_length (r : Residue) (o : Coord) :
    ∀ (coords : List Coord) (ci count : ℕ),
    (stampCoords r o coords ci count).length =
      coords.length * r.atoms.length := by
  intro coords
  induction coords with
  | nil => intro ci count; simp [stampCoords]
  | cons c0 rest ih =>
    intro ci count
    simp only [stampCoords, List.length_append, stampAtoms_length, ih,
      List.length_cons]
    rw [Nat.succ_mul]
    omega

theorem stampCoords_getElem (r : Residue) (o : Coord)
    (hA : 0 < r.atoms.length) :
    ∀ (coords : List Coord) (ci count k : ℕ) (a : Atom) (c : Coord),
    k < coords.length * r.atoms.length →
    r.atoms[k % r.atoms.length]? = some a →
    coords[k / r.atoms.length]? = some c →
    (stampCoords r o coords ci count)[k]? =
      some { atom_index := count + k,
             residue_index := ci + k / r.atoms.length, atom := a,
             residue := r, position := a.position + c + o } := by
  intro coords
  induction coords with
  | nil => intro ci count k a c hk _ _; simp at hk
  | cons c0 rest ih =>
    intro ci count k a c hk ha hc
    rcases Nat.lt_or_ge k r.atoms.length with h | h
    · rw [Nat.mod_eq_of_lt h] at ha
      rw [Nat.div_eq_of_lt h] at hc ⊢
      simp only [List.getElem?_cons_zero, Option.some.injEq] at hc
      subst hc
      simp only [stampCoords]
      rw [List.getElem?_append_left (by rw [stampAtoms_length]; exact h)]
      simpa using stampAtoms_getElem r o c0 ci r.atoms count k a ha
    · have hk2 : k - r.atoms.length < rest.length * r.atoms.length := by
        rw [List.length_cons, Nat.succ_mul] at hk
        omega
      have hkeq : k = r.atoms.length + (k - r.atoms.length) := by omega
      have hmod : k % r.atoms.length = (k - r.atoms.length) %
          r.atoms.length := by
        conv_lhs => rw [hkeq]
        rw [Nat.add_mod_left]
      have hdiv : k / r.atoms.length = (k - r.atoms.length) /
          r.atoms.length + 1 := by
        conv_lhs => rw [hkeq, Nat.add_comm]
        rw [Nat.add_div_right _ hA]
      rw [hmod] at ha
      rw [hdiv] at hc ⊢
      simp only [List.getElem?_cons_succ] at hc
      simp only [stampCoords]
      rw [List.getElem?_append_right (by rw [stampAtoms_length]; exact h),
        stampAtoms_length]
      have := ih (ci + 1) (count + r.atoms.length) (k - r.atoms.length)
        a c hk2 ha hc
      rw [this]
      congr 2
      · omega
      · omega

/-! ### Theorems for the claims -/

/-- C1: for a residue template with at least one atom, the atom iterator
yields exactly `P·A` records (`P` coordinates, `A` template atoms); the
`k`-th record carries absolute atom index `k`, residue (unit) index
`k / A`, the template atom `k % A`, the residue itself, and position
`atom.position + unit point + origin`; zero coordinates or a missing
template yield zero records. -/
theorem c1_atom_iterator (r : Residue) (coords : List Coord)
    (origin : Coord) (hA : 1 ≤ r.atoms.length) :
    (atomIterator (some r) coords origin).length =
      coords.length * r.atoms.length ∧
    (∀ (k : ℕ) (a : Atom) (c : Coord),
      k < coords.length * r.atoms.length →
      r.atoms[k % r.atoms.length]? = some a →
      coords[k / r.atoms.length]? = some c →
      (atomIterator (some r) coords origin)[k]? =
        some { atom_index := k, residue_index := k / r.atoms.length,
               atom := a, residue := r,
               position := a.position + c + origin }) ∧
    atomIterator (some r) [] origin = [] ∧
    atomIterator none coords origin = [] := by
  refine ⟨stampCoords_length r origin coords 0 0, ?_, rfl, rfl⟩
  intro k a c hk ha hc
  simpa using stampCoords_getElem r origin hA coords 0 0 k a c hk ha hc

/-- Witness for C1: the two-atom residue of the source's unit test stamped
onto two coordinates; the record at index 2 is the first template atom of
unit 1 with absolute index 2. -/
theorem c1_atom_iterator_witness :
    1 ≤ (Residue.mk "RES" [⟨"A", ⟨0, 1, 2⟩⟩,
      ⟨"B", ⟨3, 4, 5⟩⟩]).atoms.length ∧
    (atomIterator
      (some (Residue.mk "RES" [⟨"A", ⟨0, 1, 2⟩⟩, ⟨"B", ⟨3, 4, 5⟩⟩]))
      [⟨10, 11, 12⟩, ⟨20, 21, 22⟩] ⟨5, 6, 7⟩)[2]? =
      some { atom_index := 2, residue_index := 1,
             atom := ⟨"A", ⟨0, 1, 2⟩⟩,
             residue := Residue.mk "RES" [⟨"A", ⟨0, 1, 2⟩⟩,
               ⟨"B", ⟨3, 4, 5⟩⟩],
             position := ⟨25, 28, 31⟩ } := by
  constructor
  · norm_num
  · have h := (c1_atom_iterator
      (Residue.mk "RES" [⟨"A", ⟨0, 1, 2⟩⟩, ⟨"B", ⟨3, 4, 5⟩⟩])
      [⟨10, 11, 12⟩, ⟨20, 21, 22⟩] ⟨5, 6, 7⟩ (by norm_num)).2.1 2
      ⟨"A", ⟨0, 1, 2⟩⟩ ⟨20, 21, 22⟩ (by norm_num) (by rfl) (by rfl)
    rw [h]
    norm_num [Coord.add_def]

theorem radialSq_axial_add_assemble (O : Coord) (dir : Direction)
    (a b h : ℚ) :
    radialSq ((O + assemble dir a b h) - O) dir = a ^ 2 + b ^ 2 ∧
    axial ((O + assemble dir a b h) - O) dir = h := by
  cases dir <;> exact
    ⟨by simp [assemble, radialSq, Coord.add_def, Coord.sub_def],
      by simp [assemble, axial, Coord.add_def, Coord.sub_def]⟩

theorem radialSq_axial_assemble_origo (dir : Direction) (a b h : ℚ) :
    radialSq (assemble dir a b h - ⟨0, 0, 0⟩) dir = a ^ 2 + b ^ 2 ∧
    axial (assemble dir a b h - ⟨0, 0, 0⟩) dir = h := by
  cases dir <;> exact ⟨by simp [assemble, radialSq, Coord.sub_def],
    by simp [assemble, axial, Coord.sub_def]⟩

theorem sqrt_cast_le_iff (q R : ℚ) (hR : 0 ≤ R) :
    (Real.sqrt ((q : ℚ) : ℝ) ≤ ((R : ℚ) : ℝ)) ↔ q ≤ R ^ 2 := by
  rw [show ((R : ℚ) : ℝ) = Real.sqrt (((R ^ 2 : ℚ) : ℚ) : ℝ) by
    push_cast
    rw [Real.sqrt_sq (by exact_mod_cast hR)]]
  rw [Real.sqrt_le_sqrt_iff (by positivity)]
  exact_mod_cast Iff.rfl

/-- C2: hexagonal lattice generation first rounds `nx` up to the closest
multiple of 3 and `ny` up to the closest multiple of 2, places and removes
points on the adjusted grid, and recomputes the box size from the adjusted
counts; in particular replica counts (4,1) and (6,2) give identical point
sets and box sizes. -/
theorem c2_hexagonal_rounding (sp : Spacing) (nx ny : ℕ) :
    (nx ≤ hexNx nx ∧ 3 ∣ hexNx nx ∧ hexNx nx < nx + 3) ∧
    (ny ≤ hexNy ny ∧ 2 ∣ hexNy ny ∧ hexNy ny < ny + 2) ∧
    Lattice.new ⟨sp, .Hexagonal⟩ nx ny =
      { box_size := ⟨(hexNx nx : ℚ) * sp.dx, (hexNy ny : ℚ) * sp.dy, 0⟩,
        coords := hexagonalCoords sp (hexNx nx) (hexNy ny) } ∧
    Lattice.new ⟨sp, .Hexagonal⟩ 4 1 = Lattice.new ⟨sp, .Hexagonal⟩ 6 2 := by
  refine ⟨⟨?_, ?_, ?_⟩, ⟨?_, ?_, ?_⟩, rfl, ?_⟩
  · rw [hexNx_eq]; omega
  · rw [hexNx_eq]; exact Dvd.intro_left _ rfl
  · rw [hexNx_eq]; omega
  · rw [hexNy_eq]; omega
  · rw [hexNy_eq]; exact Dvd.intro_left _ rfl
  · rw [hexNy_eq]; omega
  · show finalize sp (hexNx 4) (hexNy 1) (hexagonalCoords sp (hexNx 4) (hexNy 1))
      = finalize sp (hexNx 6) (hexNy 2) (hexagonalCoords sp (hexNx 6) (hexNy 2))
    rw [show hexNx 4 = 6 by rw [hexNx_eq], show hexNy 1 = 2 by rw [hexNy_eq],
      show hexNx 6 = 6 by rw [hexNx_eq], show hexNy 2 = 2 by rw [hexNy_eq]]

/-- C3: the generic (triclinic) lattice has exactly one point per
`(row, col)` pair of the `nx × ny` grid, at
`(col·dx + row·dx_per_row, row·dy, 0)` and at row-major position
`row·nx + col`; the hexagonal point list is exactly the row-major grid
list filtered by the keep rule `(col + row + 1) % 3 ≠ 0`, so its length is
`nx·ny` minus the number of removed index pairs; `Lattice::new` uses the
generic placement for triclinic bases and the (rounded-up) hexagonal
placement for hexagonal ones. -/
theorem c3_lattice_points (sp : Spacing) (nx ny : ℕ) :
    (genericCoords sp nx ny).length = nx * ny ∧
    (∀ row col, row < ny → col < nx →
      (genericCoords sp nx ny)[row * nx + col]? =
        some (latticePoint sp row col)) ∧
    hexagonalCoords sp nx ny =
      ((gridIndices nx ny).filter fun rc =>
        decide ((rc.2 + rc.1 + 1) % 3 ≠ 0)).map
        (fun rc => latticePoint sp rc.1 rc.2) ∧
    (hexagonalCoords sp nx ny).length +
      ((gridIndices nx ny).filter fun rc =>
        decide ((rc.2 + rc.1 + 1) % 3 = 0)).length = nx * ny ∧
    (Lattice.new ⟨sp, .Triclinic⟩ nx ny).coords = genericCoords sp nx ny ∧
    (Lattice.new ⟨sp, .Hexagonal⟩ nx ny).coords =
      hexagonalCoords sp (hexNx nx) (hexNy ny) := by
  have hform : hexagonalCoords sp nx ny =
      ((gridIndices nx ny).filter fun rc =>
        decide ((rc.2 + rc.1 + 1) % 3 ≠ 0)).map
        (fun rc => latticePoint sp rc.1 rc.2) := by
    unfold hexagonalCoords gridIndices
    rw [filter_flatMap, map_flatMap]
    have hrow : ∀ row : ℕ,
        ((((List.range nx).map fun col => (row, col)).filter fun rc =>
          decide ((rc.2 + rc.1 + 1) % 3 ≠ 0)).map
          fun rc => latticePoint sp rc.1 rc.2) =
        (((List.range nx).filter fun col =>
          0 < (col + row + 1) % 3).map fun col => latticePoint sp row col)
        := by
      intro row
      rw [List.filter_map, List.map_map]
      exact congrArg _ (List.filter_congr fun col _ => by
        simp [Nat.pos_iff_ne_zero])
    simp only [hrow]
  refine ⟨?_, ?_, hform, ?_, rfl, rfl⟩
  · rw [Nat.mul_comm]
    exact flatMap_range_length _ _ _ (fun i _ => by simp)
  · intro row col hrow hcol
    exact flatMap_range_map_getElem (fun r c => latticePoint sp r c)
      nx ny row col hrow hcol
  · have hlen : (hexagonalCoords sp nx ny).length =
        ((gridIndices nx ny).filter fun rc =>
          decide ((rc.2 + rc.1 + 1) % 3 ≠ 0)).length := by
      rw [hform, List.length_map]
    have hnotq : ((gridIndices nx ny).filter fun rc =>
        decide ((rc.2 + rc.1 + 1) % 3 = 0)) =
        ((gridIndices nx ny).filter fun rc =>
          !(decide ((rc.2 + rc.1 + 1) % 3 ≠ 0))) :=
      List.filter_congr fun rc _ => by simp
    rw [hlen, hnotq, length_filter_add_length_filter_not]
    unfold gridIndices
    rw [Nat.mul_comm]
    exact flatMap_range_length _ _ _ (fun i _ => by simp)

/-- C7 counterexample: requesting size (2, 2) over a basis with spacing
`dx = dy = 1` produces a box of exactly the requested size (2, 2, 0), so
the produced box is not "never exactly the requested size". -/
theorem c7_never_exact_counterexample :
    (Lattice.from_size ⟨⟨1, 1, 0⟩, .Triclinic⟩ 2 2).box_size = ⟨2, 2, 0⟩ := by
  have h : roundF64 (2 / 1 : ℚ) = 2 := by norm_num [roundF64]
  simp only [Lattice.from_size, h]
  show (Lattice.new _ 2 2).box_size = _
  simp [Lattice.new, finalize]

/-- C7 (amended): `Lattice::from_size` computes the replica counts as the
nearest-integer rounding of size/spacing (the rounded value is within 1/2
of the exact ratio) and the produced box is `(nx·dx, ny·dy, 0)` for the
resulting counts — an exact multiple of the spacing, which can coincide
with the requested size; a hexagonal basis further adjusts the counts
before the box is computed. -/
theorem c7_from_size_rounding (sp : Spacing) (size_x size_y : ℚ) :
    (∀ q : ℚ, |q - (roundF64 q : ℚ)| ≤ 1 / 2) ∧
    Lattice.from_size ⟨sp, .Triclinic⟩ size_x size_y =
      Lattice.new ⟨sp, .Triclinic⟩ (toU64 (roundF64 (size_x / sp.dx)))
        (toU64 (roundF64 (size_y / sp.dy))) ∧
    (Lattice.from_size ⟨sp, .Triclinic⟩ size_x size_y).box_size =
      ⟨(toU64 (roundF64 (size_x / sp.dx)) : ℚ) * sp.dx,
        (toU64 (roundF64 (size_y / sp.dy)) : ℚ) * sp.dy, 0⟩ ∧
    (Lattice.from_size ⟨sp, .Hexagonal⟩ size_x size_y).box_size =
      ⟨(hexNx (toU64 (roundF64 (size_x / sp.dx))) : ℚ) * sp.dx,
        (hexNy (toU64 (roundF64 (size_y / sp.dy))) : ℚ) * sp.dy, 0⟩ :=
  ⟨roundF64_abs, rfl, rfl, rfl⟩

/-- C8 counterexample: `Lattice::from_size` with a zero requested size is
not rejected — there is no error channel in its signature at all — and
instead returns an ordinary empty lattice. -/
theorem c8_no_validation_counterexample :
    Lattice.from_size ⟨⟨1, 1, 0⟩, .Triclinic⟩ 0 0 =
      { box_size := ⟨0, 0, 0⟩, coords := [] } := by
  have h : roundF64 (0 / 1 : ℚ) = 0 := by norm_num [roundF64]
  simp only [Lattice.from_size, h]
  show Lattice.new _ 0 0 = _
  simp [Lattice.new, finalize, genericCoords]

/-- C8 (amended): `create_substrate` rejects a zero or negative input size
with an error (a plain string, not an `InvalidParameter` kind) before any
point generation occurs, whatever the substrate; `Lattice::from_size`
performs no such validation and maps a zero size to an empty lattice. -/
theorem c8_validation {α : Type} (gen : ℚ → ℚ → α) (size_x size_y : ℚ)
    (substrate : Substrate) (h : size_x ≤ 0 ∨ size_y ≤ 0) :
    create_substrate gen size_x size_y substrate =
      Except.error "input sizes of the system have to be positive" ∧
    ∀ sp : Spacing, Lattice.from_size ⟨sp, .Triclinic⟩ 0 0 =
      { box_size := ⟨0, 0, 0⟩, coords := [] } := by
  constructor
  · unfold create_substrate
    rw [if_pos h]
  · intro sp
    have h0 : roundF64 (0 / sp.dx) = 0 := by norm_num [roundF64]
    have h0' : roundF64 (0 / sp.dy) = 0 := by norm_num [roundF64]
    simp only [Lattice.from_size, h0, h0']
    show Lattice.new _ 0 0 = _
    simp [Lattice.new, finalize, genericCoords]

/-- Witness for C8: the validation theorem applied at size (0, 1). -/
theorem c8_validation_witness :
    ((0 : ℚ) ≤ 0 ∨ (1 : ℚ) ≤ 0) ∧
    (create_substrate (fun _ _ => (0 : ℕ)) 0 1 Substrate.Graphene =
        Except.error "input sizes of the system have to be positive" ∧
      ∀ sp : Spacing, Lattice.from_size ⟨sp, .Triclinic⟩ 0 0 =
        { box_size := ⟨0, 0, 0⟩, coords := [] }) :=
  ⟨Or.inl le_rfl,
    c8_validation (fun _ _ => (0 : ℕ)) 0 1 Substrate.Graphene (Or.inl le_rfl)⟩

/-- C6: cylinder containment is decided in the local frame (origin
subtracted) through the cylindrical decomposition, with a closed boundary:
a point is inside iff its squared radial distance is at most `radius²` and
its height lies in `[0, height]`; points at radius exactly `R` or at
height exactly `0` or `H` are inside, while radius `R + ε`, height
`H + ε` and height `-ε` are outside, along any alignment axis. -/
theorem c6_cylinder_contains (cyl : Cylinder) (ε : ℚ)
    (hR : 0 ≤ cyl.radius) (hH : 0 ≤ cyl.height) (hε : 0 < ε) :
    (∀ p : Coord, cyl.contains p ↔
      (radialSq (p - cyl.origin) cyl.alignment ≤ cyl.radius ^ 2 ∧
        0 ≤ axial (p - cyl.origin) cyl.alignment ∧
        axial (p - cyl.origin) cyl.alignment ≤ cyl.height)) ∧
    cyl.contains (cyl.origin + assemble cyl.alignment cyl.radius 0 0) ∧
    cyl.contains (cyl.origin + assemble cyl.alignment 0 0 cyl.height) ∧
    ¬ cyl.contains
      (cyl.origin + assemble cyl.alignment (cyl.radius + ε) 0 0) ∧
    ¬ cyl.contains
      (cyl.origin + assemble cyl.alignment 0 0 (cyl.height + ε)) ∧
    ¬ cyl.contains (cyl.origin + assemble cyl.alignment 0 0 (-ε)) := by
  have hiff : ∀ p : Coord, cyl.contains p ↔
      (radialSq (p - cyl.origin) cyl.alignment ≤ cyl.radius ^ 2 ∧
        0 ≤ axial (p - cyl.origin) cyl.alignment ∧
        axial (p - cyl.origin) cyl.alignment ≤ cyl.height) := by
    intro p
    unfold Cylinder.contains
    rw [sqrt_cast_le_iff _ _ hR]
  refine ⟨hiff, ?_, ?_, ?_, ?_, ?_⟩
  · rw [hiff]
    obtain ⟨h1, h2⟩ := radialSq_axial_add_assemble cyl.origin
      cyl.alignment cyl.radius 0 0
    rw [h1, h2]
    refine ⟨by nlinarith, le_rfl, hH⟩
  · rw [hiff]
    obtain ⟨h1, h2⟩ := radialSq_axial_add_assemble cyl.origin
      cyl.alignment 0 0 cyl.height
    rw [h1, h2]
    refine ⟨by nlinarith, hH, le_rfl⟩
  · rw [hiff]
    obtain ⟨h1, h2⟩ := radialSq_axial_add_assemble cyl.origin
      cyl.alignment (cyl.radius + ε) 0 0
    rw [h1, h2]
    intro ⟨hc, _, _⟩
    nlinarith
  · rw [hiff]
    obtain ⟨h1, h2⟩ := radialSq_axial_add_assemble cyl.origin
      cyl.alignment 0 0 (cyl.height + ε)
    rw [h1, h2]
    intro ⟨_, _, hc⟩
    linarith
  · rw [hiff]
    obtain ⟨h1, h2⟩ := radialSq_axial_add_assemble cyl.origin
      cyl.alignment 0 0 (-ε)
    rw [h1, h2]
    intro ⟨_, hc, _⟩
    linarith

/-- Witness for C6: a concrete cylinder of radius 1 and height 2 along Z
at origin (0,0,0), with ε = 1. -/
theorem c6_cylinder_contains_witness :
    (0 : ℚ) ≤ (Cylinder.mk none none .Z ⟨0, 0, 0⟩ 1 2 []).radius ∧
    (0 : ℚ) ≤ (Cylinder.mk none none .Z ⟨0, 0, 0⟩ 1 2 []).height ∧
    (0 : ℚ) < 1 ∧
    ((Cylinder.mk none none .Z ⟨0, 0, 0⟩ 1 2 []).contains
      ((Cylinder.mk none none .Z ⟨0, 0, 0⟩ 1 2 []).origin +
        assemble .Z (Cylinder.mk none none .Z ⟨0, 0, 0⟩ 1 2 []).radius 0 0) ∧
    ¬ (Cylinder.mk none none .Z ⟨0, 0, 0⟩ 1 2 []).contains
      ((Cylinder.mk none none .Z ⟨0, 0, 0⟩ 1 2 []).origin +
        assemble .Z ((Cylinder.mk none none .Z ⟨0, 0, 0⟩ 1 2 []).radius + 1)
          0 0)) := by
  have h := c6_cylinder_contains (Cylinder.mk none none .Z ⟨0, 0, 0⟩ 1 2 [])
    1 (by norm_num) (by norm_num) (by norm_num)
  exact ⟨by norm_num, by norm_num, by norm_num, h.2.1, h.2.2.2.1⟩

/-- C5 (amended): filling a cylinder with an explicit count draws exactly
that many points; the `i`-th point is `gen_coord` of the `i`-th hidden RNG
draw, its radial distance from the alignment axis is `radius · u_radius`
(a draw uniform in `[0, radius)`, with no square-root reshaping) and its
height along the axis is `height · u_height`, uniform in `[0, height)`;
every drawn point lies inside the cylinder placed at the origin. -/
theorem c5_fill_count_inside (cyl : Cylinder) (rng : ℕ → Draw) (n : ℕ)
    (hR : 0 ≤ cyl.radius) (hH : 0 ≤ cyl.height)
    (hrng : ∀ i, (rng i).valid) :
    (cyl.fill rng (.NumCoords n)).coords.length = n ∧
    (∀ i, i < n → (cyl.fill rng (.NumCoords n)).coords[i]? =
      some (gen_coord cyl (rng i))) ∧
    (∀ i, Real.sqrt
        ((radialSq (gen_coord cyl (rng i) - ⟨0, 0, 0⟩) cyl.alignment :
          ℚ) : ℝ) = ((cyl.radius * (rng i).u_radius : ℚ) : ℝ) ∧
      axial (gen_coord cyl (rng i) - ⟨0, 0, 0⟩) cyl.alignment =
        cyl.height * (rng i).u_height) ∧
    (∀ i, Cylinder.contains
      ⟨cyl.name, cyl.residue, cyl.alignment, ⟨0, 0, 0⟩, cyl.radius,
        cyl.height, []⟩ (gen_coord cyl (rng i))) := by
  have hr0 : ∀ i, 0 ≤ cyl.radius * (rng i).u_radius := fun i =>
    mul_nonneg hR (hrng i).1
  have hsq : ∀ i, radialSq (gen_coord cyl (rng i) - ⟨0, 0, 0⟩)
      cyl.alignment = (cyl.radius * (rng i).u_radius) ^ 2 ∧
      axial (gen_coord cyl (rng i) - ⟨0, 0, 0⟩) cyl.alignment =
        cyl.height * (rng i).u_height := by
    intro i
    have hg : gen_coord cyl (rng i) = assemble cyl.alignment
        (cyl.radius * (rng i).u_radius * (rng i).cos_angle)
        (cyl.radius * (rng i).u_radius * (rng i).sin_angle)
        (cyl.height * (rng i).u_height) := rfl
    rw [hg]
    obtain ⟨h1, h2⟩ := radialSq_axial_assemble_origo cyl.alignment
      (cyl.radius * (rng i).u_radius * (rng i).cos_angle)
      (cyl.radius * (rng i).u_radius * (rng i).sin_angle)
      (cyl.height * (rng i).u_height)
    refine ⟨?_, h2⟩
    rw [h1]
    have hc := (hrng i).2.2.1
    nlinarith [hc]
  refine ⟨by simp [Cylinder.fill, FillType.to_num_coords], ?_, ?_, ?_⟩
  · intro i hi
    simp [Cylinder.fill, FillType.to_num_coords, List.getElem?_map,
      List.getElem?_range hi]
  · intro i
    obtain ⟨h1, h2⟩ := hsq i
    refine ⟨?_, h2⟩
    rw [h1]
    push_cast
    rw [Real.sqrt_sq (by exact_mod_cast hr0 i)]
  · intro i
    obtain ⟨h1, h2⟩ := hsq i
    unfold Cylinder.contains
    constructor
    · show Real.sqrt _ ≤ _
      simp only
      rw [h1]
      push_cast
      rw [Real.sqrt_sq (by exact_mod_cast hr0 i)]
      have hu1 : (rng i).u_radius ≤ 1 := le_of_lt (hrng i).2.1
      have : cyl.radius * (rng i).u_radius ≤ cyl.radius * 1 :=
        mul_le_mul_of_nonneg_left hu1 hR
      exact_mod_cast by linarith
    · rw [h2]
      constructor
      · exact mul_nonneg hH (hrng i).2.2.2.1
      · have hu1 : (rng i).u_height ≤ 1 := le_of_lt (hrng i).2.2.2.2
        have : cyl.height * (rng i).u_height ≤ cyl.height * 1 :=
          mul_le_mul_of_nonneg_left hu1 hH
        linarith

/-- Witness for C5: a unit cylinder along Z filled with one point from the
constant hidden draw (u_radius, direction, u_height) = (0, (1,0), 0). -/
theorem c5_fill_count_inside_witness :
    (0 : ℚ) ≤ (Cylinder.mk none none .Z ⟨0, 0, 0⟩ 1 1 []).radius ∧
    (∀ i : ℕ, ((fun _ : ℕ => Draw.mk 0 1 0 0) i).valid) ∧
    ((Cylinder.mk none none .Z ⟨0, 0, 0⟩ 1 1 []).fill
      (fun _ : ℕ => Draw.mk 0 1 0 0) (.NumCoords 1)).coords.length = 1 := by
  have hv : ∀ i : ℕ, ((fun _ : ℕ => Draw.mk 0 1 0 0) i).valid := by
    intro i
    refine ⟨le_rfl, by norm_num, by norm_num, le_rfl, by norm_num⟩
  have h := c5_fill_count_inside (Cylinder.mk none none .Z ⟨0, 0, 0⟩ 1 1 [])
    (fun _ => Draw.mk 0 1 0 0) 1 (by norm_num) (by norm_num) hv
  exact ⟨by norm_num, hv, h.1⟩

/-- C5 counterexample: for the hidden draw `u_radius = 1/4` (direction
(1,0), height draw 0) the code places the first point of a unit cylinder
at radial distance `R·u = 1/4`, while the claimed parametrization
`R·sqrt(u)` would put it at `1/2`. -/
theorem c5_sqrt_counterexample :
    ((Cylinder.mk none none .Z ⟨0, 0, 0⟩ 1 1 []).fill
      (fun _ : ℕ => Draw.mk (1/4) 1 0 0) (.NumCoords 1)).coords =
      [⟨1/4, 0, 0⟩] ∧
    Real.sqrt ((radialSq ((⟨1/4, 0, 0⟩ : Coord) - ⟨0, 0, 0⟩) .Z : ℚ) : ℝ)
      = 1/4 ∧
    Real.sqrt ((specFillRadialSq 1 (1/4) : ℚ) : ℝ) = 1/2 ∧
    (1/4 : ℝ) ≠ 1/2 := by
  refine ⟨?_, ?_, ?_, by norm_num⟩
  · simp only [Cylinder.fill, FillType.to_num_coords, List.range_succ, List.range_zero,
      List.map_cons, List.map_nil, List.map_append, List.nil_append, gen_coord, assemble]
    norm_num
  · have : ((radialSq ((⟨1/4, 0, 0⟩ : Coord) - ⟨0, 0, 0⟩) .Z : ℚ) : ℝ) =
        (1/4 : ℝ) ^ 2 := by
      simp [radialSq, Coord.sub_def]
    rw [this, Real.sqrt_sq (by norm_num)]
  · have : ((specFillRadialSq 1 (1/4) : ℚ) : ℝ) = (1/2 : ℝ) ^ 2 := by
      simp [specFillRadialSq]
      norm_num
    rw [this, Real.sqrt_sq (by norm_num)]

/-- C9 counterexample: two runs of `Cylinder::fill` with identical
parameters (the same cylinder, the same requested count — there is no seed
or generator argument) but different hidden thread RNG states produce
different point sets. -/
theorem c9_hidden_state_counterexample :
    (Cylinder.mk none none .Z ⟨0, 0, 0⟩ 1 1 []).fill
      (fun _ : ℕ => Draw.mk 0 1 0 0) (.NumCoords 1) ≠
    (Cylinder.mk none none .Z ⟨0, 0, 0⟩ 1 1 []).fill
      (fun _ : ℕ => Draw.mk (1/2) (-1) 0 (1/2)) (.NumCoords 1) := by
  intro h
  have h2 := congrArg Cylinder.coords h
  simp only [Cylinder.fill, FillType.to_num_coords, List.range_succ, List.range_zero,
    List.map_cons, List.map_nil, List.map_append, List.nil_append, gen_coord, assemble,
    List.cons.injEq, and_true] at h2
  rw [Coord.ext_iff] at h2
  norm_num at h2

/-- C9 (amended): the output of `Cylinder::fill` is not determined by its
parameters alone — it also depends on the hidden global `thread_rng`
state, which the public signature neither seeds nor receives: there exist
two valid hidden states that give different point sets for identical
parameters. -/
theorem c9_fill_hidden_rng_dependence :
    ∃ s₁ s₂ : ℕ → Draw, (∀ i, (s₁ i).valid) ∧ (∀ i, (s₂ i).valid) ∧
      (Cylinder.mk none none .Z ⟨0, 0, 0⟩ 1 1 []).fill s₁ (.NumCoords 1) ≠
      (Cylinder.mk none none .Z ⟨0, 0, 0⟩ 1 1 []).fill s₂
        (.NumCoords 1) := by
  refine ⟨fun _ => Draw.mk 0 1 0 0, fun _ => Draw.mk (1/2) (-1) 0 (1/2),
    ?_, ?_, ?_⟩
  · intro i
    refine ⟨le_rfl, by norm_num, by norm_num, le_rfl, by norm_num⟩
  · intro i
    refine ⟨by norm_num, by norm_num, by norm_num, by norm_num, by norm_num⟩
  · intro h
    have h2 := congrArg Cylinder.coords h
    simp only [Cylinder.fill, FillType.to_num_coords, List.range_succ, List.range_zero,
      List.map_cons, List.map_nil, List.map_append, List.nil_append, gen_coord, assemble,
      List.cons.injEq, and_true] at h2
    rw [Coord.ext_iff] at h2
    norm_num at h2

/-- C10: translating a lattice shifts every coordinate by the offset and
leaves the box size unchanged; translating a component shifts its origin
and leaves its residue coordinates and box unchanged; translating by `v`
and then by `-v` restores the original exactly, in particular within the
1e-9 tolerance of the source's coordinate equality. -/
theorem c10_translate (l : Lattice) (c : Component) (v : Coord) :
    (l.translate v).box_size = l.box_size ∧
    (l.translate v).coords = l.coords.map (fun p => p.add v) ∧
    ((l.translate v).translate v.neg).coords = l.coords ∧
    List.Forall₂ Coord.eqTol ((l.translate v).translate v.neg).coords
      l.coords ∧
    (c.translate v).origin = c.origin + v ∧
    (c.translate v).box_size = c.box_size ∧
    (c.translate v).residue_coords = c.residue_coords ∧
    (c.translate v).translate v.neg = c := by
  have hpt : ∀ p : Coord, (p.add v).add v.neg = p := by
    intro p
    simp only [Coord.add, Coord.neg]
    ext <;> ring
  have hround : ((l.translate v).translate v.neg).coords = l.coords := by
    simp only [Lattice.translate, List.map_map]
    conv_rhs => rw [← List.map_id l.coords]
    exact List.map_congr_left fun p _ => hpt p
  refine ⟨rfl, rfl, hround, ?_, rfl, rfl, rfl, ?_⟩
  · rw [hround]
    rw [List.forall₂_same]
    intro p _
    refine ⟨?_, ?_, ?_⟩ <;> simp
  · cases c with
    | mk origin box_size residue_base residue_coords =>
      simp only [Component.translate, Coord.add_def, Coord.neg]
      congr 1
      ext <;> ring


namespace Poisson

theorem pairwise_imp_mem {α : Type} (l : List α) (R S : α → α → Prop)
    (H : ∀ a ∈ l, ∀ b ∈ l, R a b → S a b) (h : l.Pairwise R) :
    l.Pairwise S := by
  induction l with
  | nil => exact List.Pairwise.nil
  | cons a t ih =>
    rw [List.pairwise_cons] at h ⊢
    refine ⟨fun b hb => H a (by simp) b (by simp [hb]) (h.1 b hb), ?_⟩
    exact ih (fun x hx y hy => H x (by simp [hx]) y (by simp [hy])) h.2

theorem tryCands_sound (rsq w h : ℚ) (points : List (ℚ × ℚ))
    (chosen c : ℚ × ℚ) :
    ∀ cands, tryCands rsq w h points chosen cands = some c →
    inBounds w h c ∧ ∀ p ∈ points, rsq ≤ dist2 p c := by
  intro cands
  induction cands with
  | nil => intro hc; simp [tryCands] at hc
  | cons o rest ih =>
    intro hc
    simp only [tryCands] at hc
    split at hc
    · next hacc =>
      simp only [Option.some.injEq] at hc
      subst hc
      simp only [accepts, Bool.and_eq_true, decide_eq_true_eq,
        List.all_eq_true, decide_eq_true_eq] at hacc
      exact ⟨hacc.1, hacc.2⟩
    · exact ih hc

theorem step_inv (rsq w h : ℚ) (k : ℕ) (r : StepRand) (st : PDState)
    (hInv : Inv rsq w h st) : Inv rsq w h (step rsq w h k r st) := by
  obtain ⟨points, active⟩ := st
  obtain ⟨hpair, hbound, hsub⟩ := hInv
  cases active with
  | nil => exact ⟨hpair, hbound, hsub⟩
  | cons a rest =>
    simp only [step]
    cases htry : tryCands rsq w h points
        ((a :: rest).getD (r.pick % (a :: rest).length) a)
        ((List.range k).map r.offsets) with
    | some c =>
      obtain ⟨hcb, hcsep⟩ := tryCands_sound rsq w h points _ c _ htry
      refine ⟨?_, ?_, ?_⟩
      · rw [List.pairwise_append]
        refine ⟨hpair, by simp, ?_⟩
        intro p hp q hq
        simp only [List.mem_singleton] at hq
        subst hq
        exact hcsep p hp
      · intro p hp
        rcases List.mem_append.mp hp with hp | hp
        · exact hbound p hp
        · simp only [List.mem_singleton] at hp
          subst hp
          exact hcb
      · intro p hp
        rcases List.mem_append.mp hp with hp | hp
        · exact List.mem_append.mpr (Or.inl (hsub p hp))
        · exact List.mem_append.mpr (Or.inr hp)
    | none =>
      exact ⟨hpair, hbound,
        fun p hp => hsub p (List.eraseIdx_subset _ _ hp)⟩

theorem cellSide_pos (rsq : ℚ) (hr : 0 < rsq) : 0 < cellSide rsq := by
  unfold cellSide
  positivity

theorem two_cellSide_sq_lt (rsq : ℚ) (hr : 0 < rsq) :
    2 * cellSide rsq ^ 2 < rsq := by
  unfold cellSide
  rw [div_pow, ← mul_div_assoc, div_lt_iff₀ (by positivity)]
  nlinarith [hr, sq_nonneg rsq]

theorem cell_eq_close (s : ℚ) (hs : 0 < s) (x y : ℚ) (hx : 0 ≤ x)
    (hy : 0 ≤ y) (hcell : (⌊x / s⌋).toNat = (⌊y / s⌋).toNat) :
    (x - y) ^ 2 < s ^ 2 := by
  have hfx : (0 : ℤ) ≤ ⌊x / s⌋ := Int.floor_nonneg.mpr (by positivity)
  have hfy : (0 : ℤ) ≤ ⌊y / s⌋ := Int.floor_nonneg.mpr (by positivity)
  have heq : ⌊x / s⌋ = ⌊y / s⌋ := by omega
  have h1 : x / s - y / s < 1 := by
    have ha := Int.lt_floor_add_one (x / s)
    have hb := Int.floor_le (y / s)
    rw [heq] at ha
    linarith
  have h2 : -(1 : ℚ) < x / s - y / s := by
    have ha := Int.lt_floor_add_one (y / s)
    have hb := Int.floor_le (x / s)
    rw [heq] at hb
    push_cast at ha hb
    linarith
  have hxy1 : x - y < s := by
    rw [div_sub_div_same] at h1
    exact (div_lt_one hs).mp h1
  have hxy2 : -s < x - y := by
    rw [div_sub_div_same] at h2
    have := (lt_div_iff₀ hs).mp h2
    linarith
  exact sq_lt_sq' (by linarith) hxy1

theorem cell_mem (s : ℚ) (hs : 0 < s) (w h : ℚ) (p : ℚ × ℚ)
    (hp : inBounds w h p) :
    (cell s p).1 < (⌊w / s⌋).toNat + 1 ∧
    (cell s p).2 < (⌊h / s⌋).toNat + 1 := by
  obtain ⟨h1, h2, h3, h4⟩ := hp
  constructor
  · have : ⌊p.1 / s⌋ ≤ ⌊w / s⌋ :=
      Int.floor_le_floor ((div_le_div_iff_of_pos_right hs).mpr h2)
    unfold cell
    omega
  · have : ⌊p.2 / s⌋ ≤ ⌊h / s⌋ :=
      Int.floor_le_floor ((div_le_div_iff_of_pos_right hs).mpr h4)
    unfold cell
    omega

theorem sep_length_le (rsq w h : ℚ) (hr : 0 < rsq) (pts : List (ℚ × ℚ))
    (hsep : pts.Pairwise fun p q => rsq ≤ dist2 p q)
    (hbound : ∀ p ∈ pts, inBounds w h p) :
    pts.length ≤ maxPoints rsq w h := by
  have hs : 0 < cellSide rsq := cellSide_pos rsq hr
  have hcell_ne : ∀ p ∈ pts, ∀ q ∈ pts, rsq ≤ dist2 p q →
      cell (cellSide rsq) p ≠ cell (cellSide rsq) q := by
    intro p hp q hq hpq hceq
    obtain ⟨hpa, _, hpc, _⟩ := hbound p hp
    obtain ⟨hqa, _, hqc, _⟩ := hbound q hq
    have hc1 : (⌊p.1 / cellSide rsq⌋).toNat = (⌊q.1 / cellSide rsq⌋).toNat :=
      congrArg Prod.fst hceq
    have hc2 : (⌊p.2 / cellSide rsq⌋).toNat = (⌊q.2 / cellSide rsq⌋).toNat :=
      congrArg Prod.snd hceq
    have h1 := cell_eq_close (cellSide rsq) hs p.1 q.1 hpa hqa hc1
    have h2 := cell_eq_close (cellSide rsq) hs p.2 q.2 hpc hqc hc2
    have hd : dist2 p q < 2 * cellSide rsq ^ 2 := by
      unfold dist2
      linarith
    have := two_cellSide_sq_lt rsq hr
    linarith
  have hpair2 : pts.Pairwise
      (fun p q => cell (cellSide rsq) p ≠ cell (cellSide rsq) q) :=
    pairwise_imp_mem pts _ _ hcell_ne hsep
  have hnodup : (pts.map (cell (cellSide rsq))).Nodup :=
    List.Pairwise.map _ (fun a b hab => hab) hpair2
  have hsubset : (pts.map (cell (cellSide rsq))).toFinset ⊆
      Finset.range ((⌊w / cellSide rsq⌋).toNat + 1) ×ˢ
        Finset.range ((⌊h / cellSide rsq⌋).toNat + 1) := by
    intro x hx
    rw [List.mem_toFinset, List.mem_map] at hx
    obtain ⟨p, hp, rfl⟩ := hx
    obtain ⟨h1, h2⟩ := cell_mem (cellSide rsq) hs w h p (hbound p hp)
    rw [Finset.mem_product, Finset.mem_range, Finset.mem_range]
    exact ⟨h1, h2⟩
  calc pts.length = (pts.map (cell (cellSide rsq))).length :=
        (List.length_map _ _).symm
    _ = (pts.map (cell (cellSide rsq))).toFinset.card :=
        (List.toFinset_card_of_nodup hnodup).symm
    _ ≤ (Finset.range ((⌊w / cellSide rsq⌋).toNat + 1) ×ˢ
          Finset.range ((⌊h / cellSide rsq⌋).toNat + 1)).card :=
        Finset.card_le_card hsubset
    _ = maxPoints rsq w h := by
        rw [Finset.card_product, Finset.card_range, Finset.card_range]
        rfl

theorem step_measure (rsq w h : ℚ) (k : ℕ) (r : StepRand) (hr : 0 < rsq)
    (st : PDState) (hInv : Inv rsq w h st) (hne : st.active ≠ []) :
    measure rsq w h (step rsq w h k r st) < measure rsq w h st := by
  obtain ⟨points, active⟩ := st
  obtain ⟨hpair, hbound, hsub⟩ := hInv
  cases active with
  | nil => simp at hne
  | cons a rest =>
    simp only [step]
    cases htry : tryCands rsq w h points
        ((a :: rest).getD (r.pick % (a :: rest).length) a)
        ((List.range k).map r.offsets) with
    | some c =>
      obtain ⟨hcb, hcsep⟩ := tryCands_sound rsq w h points _ c _ htry
      have hpair2 : (points ++ [c]).Pairwise
          (fun p q => rsq ≤ dist2 p q) := by
        rw [List.pairwise_append]
        refine ⟨hpair, by simp, ?_⟩
        intro p hp q hq
        simp only [List.mem_singleton] at hq
        subst hq
        exact hcsep p hp
      have hbound2 : ∀ p ∈ points ++ [c], inBounds w h p := by
        intro p hp
        rcases List.mem_append.mp hp with hp | hp
        · exact hbound p hp
        · simp only [List.mem_singleton] at hp
          subst hp
          exact hcb
      have hlen := sep_length_le rsq w h hr _ hpair2 hbound2
      unfold measure
      simp only [List.length_append, List.length_singleton,
        List.length_cons] at hlen ⊢
      omega
    | none =>
      unfold measure
      have hi : r.pick % (a :: rest).length < (a :: rest).length :=
        Nat.mod_lt _ (by simp)
      rw [List.length_eraseIdx]
      simp only [List.length_cons] at hi ⊢
      rw [if_pos hi]
      omega

theorem run_reaches (rsq w h : ℚ) (k : ℕ) (hr : 0 < rsq) :
    ∀ (fuel : ℕ) (stream : ℕ → StepRand) (st : PDState),
    Inv rsq w h st → measure rsq w h st ≤ fuel →
    (run rsq w h k stream fuel st).active = [] ∧
    Inv rsq w h (run rsq w h k stream fuel st) := by
  intro fuel
  induction fuel with
  | zero =>
    intro stream st hInv hm
    exfalso
    have hp := sep_length_le rsq w h hr st.points hInv.1 hInv.2.1
    unfold measure at hm
    omega
  | succ fuel ih =>
    intro stream st hInv hm
    obtain ⟨points, active⟩ := st
    cases active with
    | nil => exact ⟨rfl, hInv⟩
    | cons a rest =>
      simp only [run]
      refine ih _ _ (step_inv rsq w h k (stream 0) _ hInv) ?_
      have := step_measure rsq w h k (stream 0) hr ⟨points, a :: rest⟩
        hInv (by simp)
      omega

end Poisson


/-- C4: the modelled Bridson Poisson-disc sampler terminates — with fuel
`2·maxPoints + 1` the run reaches the empty active list, the bound coming
from the packing argument enabled by the per-point attempt cap — and every
pair of distinct accepted points is separated by at least `r` (squared
distances at least `rsq = r²`, hence real distances at least `r`), with
all points inside the bounds. -/
theorem c4_poisson_disc (rsq w h : ℚ) (k : ℕ) (seed : ℚ × ℚ)
    (stream : ℕ → Poisson.StepRand) (hr : 0 < rsq)
    (hseed : Poisson.inBounds w h seed) :
    (Poisson.poissonDisc rsq w h k seed stream
        (2 * Poisson.maxPoints rsq w h + 1)).active = [] ∧
    (Poisson.poissonDisc rsq w h k seed stream
        (2 * Poisson.maxPoints rsq w h + 1)).points.Pairwise
      (fun p q => rsq ≤ Poisson.dist2 p q) ∧
    (∀ p ∈ (Poisson.poissonDisc rsq w h k seed stream
        (2 * Poisson.maxPoints rsq w h + 1)).points,
      Poisson.inBounds w h p) ∧
    (Poisson.poissonDisc rsq w h k seed stream
        (2 * Poisson.maxPoints rsq w h + 1)).points.Pairwise
      (fun p q => Real.sqrt ((rsq : ℚ) : ℝ) ≤
        Real.sqrt ((Poisson.dist2 p q : ℚ) : ℝ)) := by
  have hInv0 : Poisson.Inv rsq w h ⟨[seed], [seed]⟩ := by
    refine ⟨by simp, ?_, fun p hp => hp⟩
    intro p hp
    simp only [List.mem_singleton] at hp
    subst hp
    exact hseed
  have hm0 : Poisson.measure rsq w h ⟨[seed], [seed]⟩ ≤
      2 * Poisson.maxPoints rsq w h + 1 := by
    unfold Poisson.measure
    simp only [List.length_singleton]
    omega
  obtain ⟨hact, hInvf⟩ := Poisson.run_reaches rsq w h k hr
    (2 * Poisson.maxPoints rsq w h + 1) stream ⟨[seed], [seed]⟩ hInv0 hm0
  refine ⟨hact, hInvf.1, hInvf.2.1, ?_⟩
  exact hInvf.1.imp fun hle => Real.sqrt_le_sqrt (by exact_mod_cast hle)

/-- Witness for C4: unit bounds, `rsq = 1`, one candidate per pick, seeded
at the corner, with the constant zero random stream. -/
theorem c4_poisson_disc_witness :
    (0 : ℚ) < 1 ∧ Poisson.inBounds 1 1 ((0 : ℚ), (0 : ℚ)) ∧
    ((Poisson.poissonDisc 1 1 1 1 (0, 0)
        (fun _ => Poisson.StepRand.mk 0 (fun _ => (0, 0)))
        (2 * Poisson.maxPoints 1 1 1 + 1)).active = [] ∧
    (Poisson.poissonDisc 1 1 1 1 (0, 0)
        (fun _ => Poisson.StepRand.mk 0 (fun _ => (0, 0)))
        (2 * Poisson.maxPoints 1 1 1 + 1)).points.Pairwise
      (fun p q => 1 ≤ Poisson.dist2 p q) ∧
    (∀ p ∈ (Poisson.poissonDisc 1 1 1 1 (0, 0)
        (fun _ => Poisson.StepRand.mk 0 (fun _ => (0, 0)))
        (2 * Poisson.maxPoints 1 1 1 + 1)).points,
      Poisson.inBounds 1 1 p) ∧
    (Poisson.poissonDisc 1 1 1 1 (0, 0)
        (fun _ => Poisson.StepRand.mk 0 (fun _ => (0, 0)))
        (2 * Poisson.maxPoints 1 1 1 + 1)).points.Pairwise
      (fun p q => Real.sqrt ((1 : ℚ) : ℝ) ≤
        Real.sqrt ((Poisson.dist2 p q : ℚ) : ℝ))) := by
  have hseed : Poisson.inBounds 1 1 ((0 : ℚ), (0 : ℚ)) := by
    refine ⟨le_rfl, by norm_num, le_rfl, by norm_num⟩
  exact ⟨by norm_num, hseed,
    c4_poisson_disc 1 1 1 1 (0, 0)
      (fun _ => Poisson.StepRand.mk 0 (fun _ => (0, 0))) (by norm_num) hseed⟩

end CreateSystem
